import Mathlib

/-!
Shallow embedding of the HKDF implementation (crypto/fipsmodule/hkdf/hkdf.c)
and of the x86-64 hardware entropy source (CRYPTO_rdrand /
CRYPTO_rdrand_multiple8_buf, generated assembly), together with theorems
settling the specification claims about them.

Bytes and 64-bit machine words are modelled as `Nat`; `size_t` arithmetic is
modelled modulo `2 ^ 64` (the code's target is x86-64, as the assembly's
`OPENSSL_X86_64` guard shows).  Fallible operations return `Except CoreError`.
-/

/-- Modulus of the 64-bit machine word / `size_t` on the target (x86-64). -/
def UINT64_MOD : Nat := 2 ^ 64

/-- The error kinds of this core (spec section 7). -/
inductive CoreError where
  | invalidLength
  | primitiveFailure
  | hardwareUnavailable
deriving DecidableEq, Repr

/-- A digest selector together with the behaviour of the external keyed-hash
(HMAC) collaborator instantiated at that digest:
`size` is `EVP_MD_size(digest)`; `hmac key msg` is the one-shot
`HMAC(digest, key, key_len, msg, msg_len, out, &len)` call (also the
init/update/final sequence used by `HKDF_expand`), `none` when the keyed-hash
primitive fails; `initOk key` tells whether `HMAC_Init_ex` accepts `key`
(key-setup failure, the one failure the C code can hit before any block). -/
structure EVP_MD where
  size : Nat
  hmac : List Nat → List Nat → Option (List Nat)
  initOk : List Nat → Bool

/-- Embedding of `HKDF_extract` (hkdf.c): `PRK = HMAC(digest, salt, secret)`;
on HMAC failure it pushes `ERR_R_HMAC_LIB` and returns 0, i.e. the
keyed-hash-primitive failure.  The PRK and its reported length are the
returned list and its length. -/
def HKDF_extract (H : EVP_MD) (secret salt : List Nat) :
    Except CoreError (List Nat) :=
  match H.hmac salt secret with
  | none => Except.error CoreError.primitiveFailure
  | some prk => Except.ok prk

/-- Embedding of the block loop of `HKDF_expand` (hkdf.c).  Arguments after
`out_len`: remaining iteration count (the C loop runs `i = 0 .. n-1`, so the
fuel is `n - i`), current index `i`, bytes already copied `done`, the
`previous` block buffer, and the bytes already written to `out_key`.
Each iteration computes
`HMAC(prk, (if i != 0 then previous else []) ++ info ++ [i+1])` — the
`uint8_t ctr = i + 1` cast is the `% 256` — then copies
`todo = min(digest_len, out_len - done)` bytes of it. -/
def expandLoop (H : EVP_MD) (prk info : List Nat) (out_len : Nat) :
    Nat → Nat → Nat → List Nat → List Nat → Except CoreError (List Nat)
  | 0, _, _, _, acc => Except.ok acc
  | fuel + 1, i, done, previous, acc =>
    match H.hmac prk ((if i ≠ 0 then previous else []) ++ info ++ [(i + 1) % 256]) with
    | none => Except.error CoreError.primitiveFailure
    | some t =>
      let todo := if out_len - done < H.size then out_len - done else H.size
      expandLoop H prk info out_len fuel (i + 1) (done + todo) t (acc ++ t.take todo)

/-- Embedding of `HKDF_expand` (hkdf.c).  In C:
`n = (out_len + digest_len - 1) / digest_len;` in `size_t` arithmetic, then
`if (out_len + digest_len < out_len || n > 255) return 0;` with
`HKDF_R_OUTPUT_TOO_LARGE` (our `invalidLength`), before anything is written;
then `HMAC_Init_ex(&hmac, prk, ...)`, whose failure yields `ERR_R_HMAC_LIB`
(our `primitiveFailure`); then the block loop. -/
def HKDF_expand (H : EVP_MD) (prk info : List Nat) (out_len : Nat) :
    Except CoreError (List Nat) :=
  if (out_len + H.size) % UINT64_MOD < out_len ∨
      255 < ((out_len + H.size) % UINT64_MOD + UINT64_MOD - 1) % UINT64_MOD / H.size then
    Except.error CoreError.invalidLength
  else if H.initOk prk then
    expandLoop H prk info out_len
      (((out_len + H.size) % UINT64_MOD + UINT64_MOD - 1) % UINT64_MOD / H.size) 0 0 [] []
  else
    Except.error CoreError.primitiveFailure

/-- Embedding of the composite `HKDF` (hkdf.c): short-circuit
`HKDF_extract(prk, ...) && HKDF_expand(out, ..., prk, ...)`, returning 0 as
soon as either fails (the FIPS indicator lock/unlock and the indicator query
have no functional effect on the result). -/
def HKDF (H : EVP_MD) (secret salt info : List Nat) (out_len : Nat) :
    Except CoreError (List Nat) :=
  match HKDF_extract H secret salt with
  | Except.error e => Except.error e
  | Except.ok prk => HKDF_expand H prk info out_len

/-- Semantics of the x86-64 RDRAND instruction (Intel SDM): it yields a carry
flag `ok` and sets the destination register to the random value on success and
to zero on failure (`DEST := 0; CF := 0` when no random value is available).
A hardware draw is modelled as the pair `(ok, raw)`; this function gives the
resulting destination-register contents. -/
def rdrandDest (d : Bool × Nat) : Nat :=
  if d.1 then d.2 % UINT64_MOD else 0

/-- Embedding of `_CRYPTO_rdrand` (generated x86-64 assembly).  The code runs
`rdrand %rdx`, then `test %rdx,%rdx; jz err` and `cmp $-1,%rdx; je err`
(note `test`/`cmp` overwrite RDRAND's carry flag, so the instruction's own
success flag is consulted only through the architectural zeroing of the
destination on failure); on the surviving path `adc %rax,%rax` produces 1
(the `cmp` left CF = 1 because `%rdx ≠ -1`) and the value is stored through
`%rdi`.  State passed explicitly: `out` is the caller's 64-bit word before
the call; the result is `(returned flag, caller's word after the call)`. -/
def CRYPTO_rdrand (out : Nat) (d : Bool × Nat) : Bool × Nat :=
  let v := rdrandDest d
  if v = 0 then (false, out)
  else if v = UINT64_MOD - 1 then (false, out)
  else (true, v)

/-- Embedding of `_CRYPTO_rdrand_multiple8_buf` (generated x86-64 assembly).
The buffer is the list of its 8-byte chunks (the contract requires the byte
length to be a multiple of 8); `draws k` is the outcome of the `k`-th
execution of `rdrand %rcx`.  Per chunk the code runs `rdrand` once:
`jnc err_multiple` on instruction failure, `jz err_multiple` on an all-zero
value, `je err_multiple` (after `cmp $-1`) on an all-one value — each aborts
the whole call with return 0, leaving the current and later chunks
unwritten; otherwise the chunk is stored and the loop advances.  Result:
`(returned flag, buffer contents after the call)`. -/
def CRYPTO_rdrand_multiple8_buf (draws : Nat → Bool × Nat) :
    Nat → List Nat → Bool × List Nat
  | _, [] => (true, [])
  | k, w :: ws =>
    if (draws k).1 = false then (false, w :: ws)
    else
      let v := (draws k).2 % UINT64_MOD
      if v = 0 then (false, w :: ws)
      else if v = UINT64_MOD - 1 then (false, w :: ws)
      else
        let r := CRYPTO_rdrand_multiple8_buf draws (k + 1) ws
        (r.1, v :: r.2)

/-- Modelled from the claim (C3), for comparison with the code: a bulk fill in
which each chunk retries the single-word draw until the instruction itself
reports success, aborting only on an instruction-successful draw whose value
is all-zero or all-one bits.  Fuelled, since the claimed spin is unbounded;
`none` means the fuel ran out. -/
def bulkFillRetryClaim (draws : Nat → Bool × Nat) :
    Nat → Nat → List Nat → Option (Bool × List Nat)
  | _, _, [] => some (true, [])
  | 0, _, _ => none
  | fuel + 1, k, w :: ws =>
    if (draws k).1 = false then bulkFillRetryClaim draws fuel (k + 1) (w :: ws)
    else
      let v := (draws k).2 % UINT64_MOD
      if v = 0 ∨ v = UINT64_MOD - 1 then some (false, w :: ws)
      else
        (bulkFillRetryClaim draws fuel (k + 1) ws).map fun r => (r.1, v :: r.2)

/-- The RFC 5869 block sequence, written from the spec's words: `T(0)` is
empty and `T(i) = KeyedHash(key = PRK, message = T(i-1) || info || byte i)`
(feeding the empty `T(0)` when `i = 1` is the same as not feeding it). -/
def specT (mac : List Nat → List Nat → List Nat) (prk info : List Nat) :
    Nat → List Nat
  | 0 => []
  | i + 1 => mac prk (specT mac prk info i ++ info ++ [i + 1])

/-- The spec-side output of HKDF-Expand: the first `L` bytes of
`T(1) || ... || T(N)` with `N = ceil(L / hashLen)`. -/
def specOKM (mac : List Nat → List Nat → List Nat) (prk info : List Nat)
    (hashLen L : Nat) : List Nat :=
  (((List.range ((L + hashLen - 1) / hashLen)).map
      fun j => specT mac prk info (j + 1)).flatten).take L

/-- The manual Extract-then-Expand composition, written from the spec's words
for section 4.3: call Extract, and on its success call Expand on its PRK,
propagating the failing phase's error. -/
def hkdfManual (H : EVP_MD) (secret salt info : List Nat) (out_len : Nat) :
    Except CoreError (List Nat) :=
  (HKDF_extract H secret salt).bind fun prk => HKDF_expand H prk info out_len

/-- A concrete two-byte keyed hash used to instantiate theorems with
hypotheses at checkable inputs. -/
def toyMac (key msg : List Nat) : List Nat :=
  [(key.length + msg.length) % 256, 7]

/-- The `EVP_MD` packaging of `toyMac`: total, never-failing, output size 2. -/
def toyHash : EVP_MD :=
  { size := 2, hmac := fun k m => some (toyMac k m), initOk := fun _ => true }

/-- A stub digest of output size 32 (SHA-256's `HashLen`), for the
length-bound instance. -/
def stubHash32 : EVP_MD :=
  { size := 32, hmac := fun _ _ => some (List.replicate 32 0),
    initOk := fun _ => true }

/-- The size of the 64-bit word domain is positive. -/
lemma uint64_mod_pos : 0 < UINT64_MOD := by decide

/-- When `L + s` does not overflow, the code's wrapped block count equals the
mathematical `ceil(L / s) = (L + s - 1) / s`. -/
lemma wrapped_count_eq (L s : Nat) (hs : 0 < s) (h : L + s < UINT64_MOD) :
    ((L + s) % UINT64_MOD + UINT64_MOD - 1) % UINT64_MOD / s = (L + s - 1) / s := by
  rw [Nat.mod_eq_of_lt h]
  have h1 : L + s + UINT64_MOD - 1 = UINT64_MOD + (L + s - 1) := by omega
  rw [h1, Nat.add_mod_left, Nat.mod_eq_of_lt (by omega)]

/-- The code's wrapped comparison `(L + s) % 2^64 < L` is exactly the overflow
condition `2^64 ≤ L + s`, for operands of `size_t` range. -/
lemma wrapped_lt_iff_overflow (L s : Nat) (hL : L < UINT64_MOD)
    (hs : s < UINT64_MOD) (hs0 : 0 < s) :
    (L + s) % UINT64_MOD < L ↔ UINT64_MOD ≤ L + s := by
  by_cases h : L + s < UINT64_MOD
  · rw [Nat.mod_eq_of_lt h]; omega
  · have h2 : (L + s) % UINT64_MOD = L + s - UINT64_MOD := by
      rw [Nat.mod_eq_sub_mod (by omega), Nat.mod_eq_of_lt (by omega)]
    rw [h2]; omega

/-- The block loop can only fail with the keyed-hash-primitive error, never
with the length error: the length check happens before the loop. -/
lemma expandLoop_ne_invalid (H : EVP_MD) (prk info : List Nat) (L : Nat) :
    ∀ fuel i done prev acc,
      expandLoop H prk info L fuel i done prev acc ≠
        Except.error CoreError.invalidLength := by
  intro fuel
  induction fuel with
  | zero => intro i done prev acc h; simp [expandLoop] at h
  | succ fuel ih =>
    intro i done prev acc h
    rw [expandLoop] at h
    cases hm : H.hmac prk ((if i ≠ 0 then prev else []) ++ info ++ [(i + 1) % 256]) with
    | none => rw [hm] at h; simp at h
    | some t => rw [hm] at h; exact ih _ _ _ _ h

/-- C4: the single-word entropy draw fails whenever the hardware instruction
reports failure, and also whenever the instruction reports success but the
64-bit value is all-zero bits or all-one bits; for every other
instruction-reported-successful value it returns success with that value
stored in the caller's word. -/
theorem rdrand_fault_detection (out : Nat) (ok : Bool) (raw : Nat)
    (h : raw < UINT64_MOD) :
    (ok = false → CRYPTO_rdrand out (ok, raw) = (false, out)) ∧
    (raw = 0 → CRYPTO_rdrand out (true, raw) = (false, out)) ∧
    (raw = UINT64_MOD - 1 → CRYPTO_rdrand out (true, raw) = (false, out)) ∧
    (raw ≠ 0 → raw ≠ UINT64_MOD - 1 → CRYPTO_rdrand out (true, raw) = (true, raw)) := by
  refine ⟨?_, ?_, ?_, ?_⟩
  · intro hok; subst hok; simp [CRYPTO_rdrand, rdrandDest]
  · intro h0; subst h0; simp [CRYPTO_rdrand, rdrandDest]
  · intro h1; subst h1
    simp [CRYPTO_rdrand, rdrandDest, Nat.mod_eq_of_lt (by decide : UINT64_MOD - 1 < UINT64_MOD)]
  · intro h0 h1
    simp [CRYPTO_rdrand, rdrandDest, Nat.mod_eq_of_lt h, h0, h1]

/-- Witness for `rdrand_fault_detection`: an ordinary successful draw. -/
theorem rdrand_fault_detection_witness : CRYPTO_rdrand 9 (true, 5) = (true, 5) :=
  (rdrand_fault_detection 9 true 5 (by decide)).2.2.2 (by decide) (by decide)

/-- C10: when the single-word draw fails — for any reason — it does not write
through the caller's output pointer: the destination word is unchanged. -/
theorem rdrand_no_write_on_failure (out : Nat) (d : Bool × Nat)
    (h : (CRYPTO_rdrand out d).1 = false) : (CRYPTO_rdrand out d).2 = out := by
  unfold CRYPTO_rdrand at *
  by_cases h0 : rdrandDest d = 0
  · simp [h0]
  · by_cases h1 : rdrandDest d = UINT64_MOD - 1
    · simp [h0, h1]
    · simp [h0, h1] at h

/-- Witness for `rdrand_no_write_on_failure`: a stuck-at-zero draw leaves the
caller's word at its previous value 7. -/
theorem rdrand_no_write_on_failure_witness : (CRYPTO_rdrand 7 (true, 0)).2 = 7 :=
  rdrand_no_write_on_failure 7 (true, 0) (by decide)

/-- Counterexample to C3 as stated: a transient instruction failure on the
first draw followed by a perfectly good draw.  Under the claimed
retry-until-instruction-success behaviour the one-chunk fill would succeed
with the value 5, but the code aborts the bulk operation on the instruction
failure and leaves the chunk unwritten. -/
theorem rdrand_buf_retry_cex :
    bulkFillRetryClaim (fun k => (decide (0 < k), 5)) 2 0 [3] = some (true, [5]) ∧
    CRYPTO_rdrand_multiple8_buf (fun k => (decide (0 < k), 5)) 0 [3] = (false, [3]) ∧
    CRYPTO_rdrand_multiple8_buf (fun k => (decide (0 < k), 5)) 0 [3] ≠ (true, [5]) := by
  refine ⟨?_, ?_, ?_⟩ <;> decide

/-- The bulk fill consumes exactly one draw per chunk: its result depends only
on the draws at indices `k .. k + length - 1`, one per chunk (a retrying
implementation would read further draws on transient failures). -/
lemma rdrand_buf_local :
    ∀ (buf : List Nat) (k : Nat) (draws draws' : Nat → Bool × Nat),
      (∀ j, j < buf.length → draws' (k + j) = draws (k + j)) →
      CRYPTO_rdrand_multiple8_buf draws' k buf =
        CRYPTO_rdrand_multiple8_buf draws k buf := by
  intro buf
  induction buf with
  | nil => intro k draws draws' _; rfl
  | cons w ws ih =>
    intro k draws draws' h
    have h0 : draws' k = draws k := by simpa using h 0 (by simp)
    have hrec := ih (k + 1) draws draws' (fun j hj => by
      have he : k + 1 + j = k + (j + 1) := by omega
      rw [he]
      exact h (j + 1) (by simpa using Nat.succ_lt_succ hj))
    simp only [CRYPTO_rdrand_multiple8_buf, h0, hrec]

/-- C3 amended: each 8-byte chunk is obtained by a single attempt of the
hardware draw — an instruction-reported failure aborts the whole bulk
operation exactly as a detected all-zero/all-one fault pattern does, with no
retry (the operation consumes exactly one draw per chunk), and on a good draw
the chunk is written and the loop advances. -/
theorem rdrand_buf_single_attempt :
    (∀ (draws : Nat → Bool × Nat) (k w : Nat) (ws : List Nat),
       (draws k).1 = false →
       CRYPTO_rdrand_multiple8_buf draws k (w :: ws) = (false, w :: ws)) ∧
    (∀ (draws : Nat → Bool × Nat) (k w : Nat) (ws : List Nat),
       (draws k).1 = true →
       ((draws k).2 % UINT64_MOD = 0 ∨ (draws k).2 % UINT64_MOD = UINT64_MOD - 1) →
       CRYPTO_rdrand_multiple8_buf draws k (w :: ws) = (false, w :: ws)) ∧
    (∀ (draws : Nat → Bool × Nat) (k w : Nat) (ws : List Nat),
       (draws k).1 = true →
       (draws k).2 % UINT64_MOD ≠ 0 → (draws k).2 % UINT64_MOD ≠ UINT64_MOD - 1 →
       CRYPTO_rdrand_multiple8_buf draws k (w :: ws) =
         ((CRYPTO_rdrand_multiple8_buf draws (k + 1) ws).1,
          (draws k).2 % UINT64_MOD :: (CRYPTO_rdrand_multiple8_buf draws (k + 1) ws).2)) ∧
    (∀ (draws draws' : Nat → Bool × Nat) (k : Nat) (buf : List Nat),
       (∀ j, j < buf.length → draws' (k + j) = draws (k + j)) →
       CRYPTO_rdrand_multiple8_buf draws' k buf =
         CRYPTO_rdrand_multiple8_buf draws k buf) := by
  refine ⟨?_, ?_, ?_, ?_⟩
  · intro draws k w ws hf
    simp [CRYPTO_rdrand_multiple8_buf, hf]
  · intro draws k w ws hok hv
    rcases hv with hv | hv <;> simp [CRYPTO_rdrand_multiple8_buf, hok, hv]
  · intro draws k w ws hok h0 h1
    simp [CRYPTO_rdrand_multiple8_buf, hok, h0, h1]
  · intro draws draws' k buf h
    exact rdrand_buf_local buf k draws draws' h

/-- Witness for `rdrand_buf_single_attempt`: an instruction failure on the
very first draw aborts a one-chunk fill, unwritten. -/
theorem rdrand_buf_single_attempt_witness :
    CRYPTO_rdrand_multiple8_buf (fun _ => (false, 3)) 0 [4] = (false, [4]) :=
  rdrand_buf_single_attempt.1 (fun _ => (false, 3)) 0 4 [] (by decide)

/-- Under an always-instruction-successful, never-stuck draw stream, the bulk
fill writes chunk `j` from draw `k + j` and succeeds, for any start index. -/
lemma rdrand_buf_fill_all :
    ∀ (buf : List Nat) (k : Nat) (draws : Nat → Bool × Nat),
      (∀ j, (draws j).1 = true ∧ (draws j).2 % UINT64_MOD ≠ 0 ∧
            (draws j).2 % UINT64_MOD ≠ UINT64_MOD - 1) →
      CRYPTO_rdrand_multiple8_buf draws k buf =
        (true, (List.range buf.length).map fun j => (draws (k + j)).2 % UINT64_MOD) := by
  intro buf
  induction buf with
  | nil => intro k draws _; rfl
  | cons w ws ih =>
    intro k draws h
    obtain ⟨h1, h2, h3⟩ := h k
    have hrec := ih (k + 1) draws h
    have hfun : ((fun j => (draws (k + j)).2 % UINT64_MOD) ∘ Nat.succ) =
        fun j => (draws (k + 1 + j)).2 % UINT64_MOD := by
      funext j
      simp only [Function.comp]
      have he : k + Nat.succ j = k + 1 + j := by omega
      rw [he]
    simp [CRYPTO_rdrand_multiple8_buf, h1, h2, h3, hrec,
      List.range_succ_eq_map, hfun]

/-- C7: bulk fill of an empty buffer succeeds without writing; and under a
hardware RNG that always reports instruction success and never yields an
all-zero or all-one word, the bulk fill writes every chunk of the buffer at
its own offset, in order, and returns success. -/
theorem rdrand_buf_fills (draws : Nat → Bool × Nat) (buf : List Nat) :
    CRYPTO_rdrand_multiple8_buf draws 0 [] = (true, []) ∧
    ((∀ j, (draws j).1 = true ∧ (draws j).2 % UINT64_MOD ≠ 0 ∧
           (draws j).2 % UINT64_MOD ≠ UINT64_MOD - 1) →
      CRYPTO_rdrand_multiple8_buf draws 0 buf =
        (true, (List.range buf.length).map fun j => (draws j).2 % UINT64_MOD)) := by
  constructor
  · rfl
  · intro h
    have := rdrand_buf_fill_all buf 0 draws h
    simpa using this

/-- Witness for `rdrand_buf_fills`: a two-chunk buffer filled from a stub
stream whose words cycle through 5, 6, 7. -/
theorem rdrand_buf_fills_witness :
    CRYPTO_rdrand_multiple8_buf (fun j => (true, j % 3 + 5)) 0 [1, 2] = (true, [5, 6]) := by
  have h := (rdrand_buf_fills (fun j => (true, j % 3 + 5)) [1, 2]).2 (by
    intro j
    refine ⟨rfl, ?_, ?_⟩ <;>
      · have hj : j % 3 < 3 := Nat.mod_lt _ (by decide)
        have : (j % 3 + 5) % UINT64_MOD = j % 3 + 5 :=
          Nat.mod_eq_of_lt (by simp only [UINT64_MOD]; omega)
        simp only [this, UINT64_MOD]
        omega)
  rw [h]
  decide

/-- C5: for every digest, secret, salt, info and requested length, the
composite `HKDF` is externally equivalent to manually composing Extract and
then Expand on Extract's PRK: same success, same output bytes, and the
failing phase's error propagated (Expand is short-circuited away after an
Extract failure). -/
theorem hkdf_composite_eq_manual (H : EVP_MD) (secret salt info : List Nat)
    (L : Nat) : HKDF H secret salt info L = hkdfManual H secret salt info L := by
  unfold HKDF hkdfManual HKDF_extract
  cases H.hmac salt secret <;> rfl

/-- C8: whenever `HKDF_extract` succeeds, the PRK it produces (together with
its reported length) is exactly `HashLen` bytes — the selected digest's
output size — for every secret and salt, given the keyed-hash collaborator's
interface contract that a final output has digest length. -/
theorem hkdf_extract_prk_length (H : EVP_MD) (secret salt prk : List Nat)
    (hc : ∀ k m d, H.hmac k m = some d → d.length = H.size)
    (h : HKDF_extract H secret salt = Except.ok prk) : prk.length = H.size := by
  unfold HKDF_extract at h
  cases hm : H.hmac salt secret with
  | none => rw [hm] at h; simp at h
  | some d =>
    rw [hm] at h
    simp only [Except.ok.injEq] at h
    subst h
    exact hc _ _ _ hm

/-- Witness for `hkdf_extract_prk_length`: extracting with `toyHash` from a
concrete secret and salt yields the two-byte PRK `[3, 7]`, of length
`toyHash.size`. -/
theorem hkdf_extract_prk_length_witness : ([3, 7] : List Nat).length = toyHash.size :=
  hkdf_extract_prk_length toyHash [1, 2] [3] [3, 7]
    (fun k m d hd => by
      simp only [toyHash, toyMac, Option.some.injEq] at hd
      subst hd
      rfl)
    (by rfl)

/-- Loop invariant of `HKDF_expand`'s block loop: started at block index `i`
with the previous-block buffer holding `T(i)` and `done` bytes already
copied, running `j` more iterations appends the next `j` spec blocks,
truncated to the `L - done` bytes still owed, to the accumulated output.
Requires the keyed hash to be total with fixed-size output and `i + j ≤ 255`
(so the one-byte counter does not wrap). -/
lemma expandLoop_spec (H : EVP_MD) (mac : List Nat → List Nat → List Nat)
    (prk info : List Nat) (L : Nat)
    (hrun : H.hmac = fun k m => some (mac k m))
    (hlen : ∀ k m, (mac k m).length = H.size) :
    ∀ j i done acc, i + j ≤ 255 →
      expandLoop H prk info L j i done (specT mac prk info i) acc =
        Except.ok (acc ++
          (((List.range j).map fun t => specT mac prk info (i + t + 1)).flatten).take
            (L - done)) := by
  intro j
  induction j with
  | zero => intro i done acc _; simp [expandLoop]
  | succ j ih =>
    intro i done acc h
    have hctr : (i + 1) % 256 = i + 1 := Nat.mod_eq_of_lt (by omega)
    have hmsg : ((if i ≠ 0 then specT mac prk info i else []) ++ info ++ [(i + 1) % 256])
        = specT mac prk info i ++ info ++ [i + 1] := by
      cases i with
      | zero => simp [specT, hctr]
      | succ i' => simp [hctr]
    have hT : specT mac prk info (i + 1) =
        mac prk (specT mac prk info i ++ info ++ [i + 1]) := rfl
    rw [expandLoop, hmsg, hrun]
    simp only []
    rw [← hT]
    have hTlen : (specT mac prk info (i + 1)).length = H.size := by
      rw [hT]; exact hlen _ _
    rw [ih (i + 1) _ _ (by omega)]
    congr 1
    rw [List.range_succ_eq_map, List.map_cons, List.map_map, List.flatten_cons]
    have hfun : ((fun t => specT mac prk info (i + t + 1)) ∘ Nat.succ) =
        fun t => specT mac prk info (i + 1 + t + 1) := by
      funext t
      simp only [Function.comp]
      have he : i + Nat.succ t + 1 = i + 1 + t + 1 := by omega
      rw [he]
    rw [hfun]
    simp only [Nat.add_zero]
    rw [List.take_append_eq_append_take, hTlen, List.append_assoc]
    by_cases hc : L - done < H.size
    · rw [if_pos hc]
      have he : L - (done + (L - done)) = L - done - H.size := by omega
      rw [he]
    · rw [if_neg hc]
      have h1 : List.take (L - done) (specT mac prk info (i + 1)) =
          List.take H.size (specT mac prk info (i + 1)) := by
        rw [List.take_of_length_le (by omega), List.take_of_length_le (by omega)]
      have he : L - (done + H.size) = L - done - H.size := by omega
      rw [he, h1]

/-- On valid lengths and with a working keyed hash, `HKDF_expand` returns
exactly the spec's output: the first `L` bytes of `T(1) || ... || T(N)`. -/
lemma hkdf_expand_ok_eq (H : EVP_MD) (mac : List Nat → List Nat → List Nat)
    (prk info : List Nat) (L : Nat)
    (hs : 0 < H.size)
    (hrun : H.hmac = fun k m => some (mac k m))
    (hlen : ∀ k m, (mac k m).length = H.size)
    (hinit : H.initOk prk = true)
    (hov : L + H.size < UINT64_MOD)
    (hN : (L + H.size - 1) / H.size ≤ 255) :
    HKDF_expand H prk info L = Except.ok (specOKM mac prk info H.size L) := by
  unfold HKDF_expand
  rw [wrapped_count_eq L H.size hs hov, Nat.mod_eq_of_lt hov]
  rw [if_neg (by push_neg; exact ⟨Nat.le_add_right _ _, hN⟩)]
  rw [if_pos hinit]
  have h0 : specT mac prk info 0 = ([] : List Nat) := rfl
  have h2 := expandLoop_spec H mac prk info L hrun hlen ((L + H.size - 1) / H.size)
    0 0 [] (by omega)
  rw [h0] at h2
  rw [h2]
  unfold specOKM
  simp only [Nat.zero_add, Nat.sub_zero, List.nil_append]

/-- C1: for every digest (with its keyed hash meeting the interface contract:
total, fixed `HashLen`-byte output, key accepted), PRK, info, and valid
requested length `L` — `L = 0` included — `HKDF_expand` computes
`T(i) = KeyedHash(PRK, T(i-1) || info || byte i)` for `i = 1..N`,
`N = ceil(L / HashLen)`, and returns success with exactly the first `L`
bytes of `T(1) || ... || T(N)`; for `L = 0` this is success with zero bytes
written. -/
theorem hkdf_expand_matches_rfc_blocks (H : EVP_MD)
    (mac : List Nat → List Nat → List Nat) (prk info : List Nat) (L : Nat)
    (hs : 0 < H.size)
    (hrun : H.hmac = fun k m => some (mac k m))
    (hlen : ∀ k m, (mac k m).length = H.size)
    (hinit : H.initOk prk = true)
    (hov : L + H.size < UINT64_MOD)
    (hN : (L + H.size - 1) / H.size ≤ 255) :
    HKDF_expand H prk info L = Except.ok (specOKM mac prk info H.size L) :=
  hkdf_expand_ok_eq H mac prk info L hs hrun hlen hinit hov hN

/-- Witness for `hkdf_expand_matches_rfc_blocks`: a two-byte digest with
`L = 3` (two blocks, the second truncated), and `L = 0` returning success
with an empty output. -/
theorem hkdf_expand_matches_rfc_blocks_witness :
    HKDF_expand toyHash [5] [9] 3 = Except.ok (specOKM toyMac [5] [9] 2 3) ∧
    HKDF_expand toyHash [5] [9] 0 = Except.ok [] := by
  constructor
  · exact hkdf_expand_matches_rfc_blocks toyHash toyMac [5] [9] 3 (by decide) rfl
      (fun k m => rfl) rfl (by decide) (by decide)
  · rw [hkdf_expand_matches_rfc_blocks toyHash toyMac [5] [9] 0 (by decide) rfl
      (fun k m => rfl) rfl (by decide) (by decide)]
    rfl

/-- A requested length is never larger than `ceil(L / s) * s` blocks of `s`
bytes: the blocks cover the request. -/
lemma take_le_ceil_mul (L s : Nat) (hs : 0 < s) : L ≤ (L + s - 1) / s * s := by
  have hd := Nat.div_add_mod (L + s - 1) s
  have hm : (L + s - 1) % s < s := Nat.mod_lt _ hs
  rw [Nat.mul_comm]
  generalize s * ((L + s - 1) / s) = t at *
  omega

/-- The concatenation of the first `N` spec blocks has length `N * HashLen`. -/
lemma specOKM_flatten_len (mac : List Nat → List Nat → List Nat)
    (prk info : List Nat) (s : Nat) (hlen : ∀ k m, (mac k m).length = s) (N : Nat) :
    (((List.range N).map fun j => specT mac prk info (j + 1)).flatten).length = N * s := by
  rw [List.length_flatten, List.map_map]
  have hfun : (List.length ∘ fun j => specT mac prk info (j + 1)) =
      Function.const Nat s := by
    funext j
    simp only [Function.comp, Function.const]
    exact hlen _ _
  rw [hfun, List.map_const, List.sum_replicate, List.length_range, smul_eq_mul]

/-- Truncating the spec output for a longer request gives the spec output of
the shorter request. -/
lemma specOKM_take (mac : List Nat → List Nat → List Nat) (prk info : List Nat)
    (s L1 L2 : Nat) (hs : 0 < s) (hlen : ∀ k m, (mac k m).length = s)
    (h12 : L1 ≤ L2) :
    (specOKM mac prk info s L2).take L1 = specOKM mac prk info s L1 := by
  unfold specOKM
  rw [List.take_take, inf_eq_left.mpr h12]
  have hN12 : (L1 + s - 1) / s ≤ (L2 + s - 1) / s :=
    Nat.div_le_div_right (by omega)
  have hsplit : List.range ((L2 + s - 1) / s) =
      List.range ((L1 + s - 1) / s) ++
        (List.range ((L2 + s - 1) / s - (L1 + s - 1) / s)).map
          fun x => (L1 + s - 1) / s + x := by
    rw [← List.range_add]
    congr 1
    omega
  rw [hsplit, List.map_append, List.flatten_append, List.take_append_eq_append_take,
    specOKM_flatten_len mac prk info s hlen,
    Nat.sub_eq_zero_of_le (take_le_ceil_mul L1 s hs), List.take_zero, List.append_nil]

/-- C6: for every digest (meeting the keyed-hash interface contract), PRK,
info, and valid lengths `L1 < L2`, the first `L1` bytes of the output of
Expand with requested length `L2` equal the full output of Expand with
requested length `L1`. -/
theorem hkdf_expand_consistent_take (H : EVP_MD)
    (mac : List Nat → List Nat → List Nat) (prk info : List Nat) (L1 L2 : Nat)
    (hs : 0 < H.size)
    (hrun : H.hmac = fun k m => some (mac k m))
    (hlen : ∀ k m, (mac k m).length = H.size)
    (hinit : H.initOk prk = true)
    (h12 : L1 < L2)
    (hov : L2 + H.size < UINT64_MOD)
    (hN : (L2 + H.size - 1) / H.size ≤ 255) :
    HKDF_expand H prk info L1 =
      Except.map (List.take L1) (HKDF_expand H prk info L2) := by
  rw [hkdf_expand_ok_eq H mac prk info L2 hs hrun hlen hinit hov hN,
    hkdf_expand_ok_eq H mac prk info L1 hs hrun hlen hinit (by omega)
      (le_trans (Nat.div_le_div_right (by omega)) hN)]
  simp only [Except.map]
  rw [specOKM_take mac prk info H.size L1 L2 hs hlen (le_of_lt h12)]

/-- Witness for `hkdf_expand_consistent_take`: `L1 = 1 < L2 = 3` on the
two-byte digest. -/
theorem hkdf_expand_consistent_take_witness :
    HKDF_expand toyHash [5] [9] 1 =
      Except.map (List.take 1) (HKDF_expand toyHash [5] [9] 3) :=
  hkdf_expand_consistent_take toyHash toyMac [5] [9] 1 3 (by decide) rfl
    (fun k m => rfl) rfl (by decide) (by decide) (by decide)

/-- C2: `HKDF_expand` fails with the length error exactly when `L + HashLen`
overflows `size_t` or when `N = ceil(L / HashLen)` exceeds 255; the check
happens before anything is written (the error carries no output).  Any other
failure is the keyed-hash-primitive error. -/
theorem hkdf_expand_invalid_length_iff (H : EVP_MD) (prk info : List Nat)
    (L : Nat) (hs : 0 < H.size) (hsM : H.size < UINT64_MOD)
    (hL : L < UINT64_MOD) :
    HKDF_expand H prk info L = Except.error CoreError.invalidLength ↔
      (UINT64_MOD ≤ L + H.size ∨ 255 < (L + H.size - 1) / H.size) := by
  unfold HKDF_expand
  by_cases hg : (L + H.size) % UINT64_MOD < L ∨
      255 < ((L + H.size) % UINT64_MOD + UINT64_MOD - 1) % UINT64_MOD / H.size
  · rw [if_pos hg]
    constructor
    · intro _
      by_cases hov : UINT64_MOD ≤ L + H.size
      · exact Or.inl hov
      · rcases hg with hg1 | hg2
        · exact absurd hg1 (by rw [Nat.mod_eq_of_lt (by omega)]; omega)
        · right
          rwa [wrapped_count_eq L H.size hs (by omega)] at hg2
    · intro _; rfl
  · rw [if_neg hg]
    constructor
    · intro h
      exfalso
      by_cases hinit : H.initOk prk = true
      · rw [if_pos hinit] at h
        exact expandLoop_ne_invalid H prk info L _ _ _ _ _ h
      · rw [if_neg hinit] at h
        simp at h
    · intro h
      exfalso
      apply hg
      rcases h with hov | hN
      · exact Or.inl ((wrapped_lt_iff_overflow L H.size hL hsM hs).mpr hov)
      · by_cases hov2 : UINT64_MOD ≤ L + H.size
        · exact Or.inl ((wrapped_lt_iff_overflow L H.size hL hsM hs).mpr hov2)
        · right
          rwa [wrapped_count_eq L H.size hs (by omega)]

/-- Witness for `hkdf_expand_invalid_length_iff`: the claim's instance — for a
digest of output size 32 (SHA-256), a request of `L = 8193` bytes fails with
the length error, since `N = 257 > 255`. -/
theorem hkdf_expand_invalid_length_iff_witness :
    HKDF_expand stubHash32 [] [] 8193 = Except.error CoreError.invalidLength :=
  (hkdf_expand_invalid_length_iff stubHash32 [] [] 8193 (by decide) (by decide)
    (by decide)).mpr (by decide)
